import Mathlib

/-!
Verification of the path-zipping task (`tasks/zip_path.py`).

The development shallowly embeds the task: filesystem trees are finite
inductive trees, `os.walk` with in-place directory filtering becomes a
structural recursion, `pathlib` path manipulation becomes operations on
component lists, and the task body `_run_task` becomes a pure function
from resolved option values to a list of filesystem effects together
with either an error or the returned result record.
-/

namespace ZipPath

/-- Scan a character-class body to the first closing bracket: returns the
characters before it and the remainder after it, or `none` when the class
is unterminated. -/
def scanBody : List Char → Option (List Char × List Char)
  | [] => none
  | c :: rest =>
    if c = ']' then some ([], rest)
    else (scanBody rest).map fun pr => (c :: pr.1, pr.2)

/-- Parse the body of a `[...]` character class following the opening
bracket, mirroring the scan in the standard shell-pattern translator: an
optional leading `!` negates the class, a `]` directly after the opening
bracket (or after the `!`) is a literal member, and the class ends at the
next `]`.  Returns `none` when no closing bracket exists, in which case
the `[` is treated as a literal character. -/
def scanClass (ps : List Char) : Option (Bool × List Char × List Char) :=
  let neg : Bool := match ps with
    | '!' :: _ => true
    | _ => false
  let body : List Char := match ps with
    | '!' :: r => r
    | _ => ps
  match body with
  | ']' :: r =>
    match scanBody r with
    | some pr => some (neg, ']' :: pr.1, pr.2)
    | none => none
  | _ =>
    match scanBody body with
    | some pr => some (neg, pr.1, pr.2)
    | none => none

/-- Membership of a character in a negation-stripped character-class
body: `a-b` denotes a codepoint range, while a hyphen at the start or the
end of the body is a literal member, as in the regular expression a shell
pattern class translates to. -/
def classMatches : List Char → Char → Bool
  | [], _ => false
  | a :: '-' :: b :: rest, c => (a ≤ c && c ≤ b) || classMatches rest c
  | a :: rest, c => (a = c) || classMatches rest c

/-- Fuelled worker for shell-style glob matching: every recursive call
strictly shrinks `p.length + s.length` (a successful `scanClass` consumes
at least the closing bracket), so any fuel above that sum makes the
fuel-exhaustion branch unreachable. -/
def globMatchAux : Nat → List Char → List Char → Bool
  | 0, _, _ => false
  | fuel + 1, p, s =>
    match p, s with
    | [], [] => true
    | [], _ :: _ => false
    | '*' :: ps, [] => globMatchAux fuel ps []
    | '*' :: ps, c :: cs =>
      globMatchAux fuel ps (c :: cs) || globMatchAux fuel ('*' :: ps) cs
    | '?' :: ps, _ :: cs => globMatchAux fuel ps cs
    | '?' :: _, [] => false
    | '[' :: ps, c :: cs =>
      match scanClass ps with
      | some ncr => (classMatches ncr.2.1 c != ncr.1) && globMatchAux fuel ncr.2.2 cs
      | none => ('[' = c) && globMatchAux fuel ps cs
    | '[' :: _, [] => false
    | a :: ps, c :: cs => (a = c) && globMatchAux fuel ps cs
    | _ :: _, [] => false

/-- Shell-style glob matching as performed by `fnmatch.fnmatch` on a
POSIX system: `*` matches any (possibly empty) sequence of characters,
`?` matches any single character, `[...]` matches a character class, and
every other character matches itself; the whole string must match. -/
def globMatch (p : List Char) (s : List Char) : Bool :=
  globMatchAux (p.length + s.length + 1) p s

/-- Matching of a name against a shell pattern, argument order as in
`fnmatch.fnmatch(name, pattern)`. -/
def fnmatch (s : String) (pat : String) : Bool :=
  globMatch pat.toList s.toList

/-- Replace every backslash by a forward slash, the effect of the
`.replace` calls `_should_exclude` applies to the rendered relative path
and to each pattern. -/
def normSlash (s : String) : String :=
  String.mk (s.toList.map fun c => if c = '\\' then '/' else c)

/-- Embedding of `ZipPath._should_exclude` for an entry lying under the
source directory.  `rel` is the entry's path relative to the source as a
list of path components; the `ValueError` fallback for paths outside the
source is unreachable from `_run_task` and is not modelled.  The relative
path is rendered with `/` separators, each pattern has its backslashes
normalised, and a pattern excludes the entry when it matches either the
rendered relative path or the entry's bare name. -/
def shouldExclude (rel : List String) (patterns : List String) : Bool :=
  if patterns.isEmpty then false
  else
    patterns.any fun pat =>
      let pat₁ := normSlash pat
      fnmatch (normSlash (String.intercalate "/" rel)) pat₁ ||
      fnmatch (rel.getLastD "") pat₁

example : fnmatch "a.log" "*.log" = true := by decide
example : fnmatch "build/x.txt" "build/*" = true := by decide
example : fnmatch "a.log" "*.txt" = false := by decide
example : fnmatch "ab" "a[b-d]" = true := by decide
example : fnmatch "ae" "a[b-d]" = false := by decide
example : fnmatch "ab" "a[!b-d]" = false := by decide
example : shouldExclude ["build", "x.txt"] ["build"] = false := by decide
example : shouldExclude ["build", "x.txt"] ["*.txt"] = true := by decide
example : shouldExclude ["build"] ["build"] = true := by decide

/-- Finite filesystem tree: a node under the source path is either a
regular file with byte contents or a directory with a finite list of
named children.  Sibling order models the directory-listing order
`os.walk` observes. -/
inductive FsTree where
  | file : List Nat → FsTree
  | dir : List (String × FsTree) → FsTree

mutual

/-- Archive members produced for a node reached at source-relative path
`rel` by the `os.walk` loop of `_run_task`: at each directory the list of
subdirectories is filtered with `_should_exclude` before descending, the
non-excluded files of the current directory are written at their
source-relative paths, and pruned subtrees are never visited. -/
def walkTree (patterns : List String) (rel : List String) :
    FsTree → List (List String × List Nat)
  | FsTree.file _ => []
  | FsTree.dir es => walkFiles patterns rel es ++ walkDirs patterns rel es

/-- Files of the current directory written by the inner `for file in
files` loop: each non-excluded file becomes a member at its
source-relative path, carrying its contents. -/
def walkFiles (patterns : List String) (rel : List String) :
    List (String × FsTree) → List (List String × List Nat)
  | [] => []
  | (n, FsTree.file c) :: rest =>
    (if shouldExclude (rel ++ [n]) patterns then [] else [(rel ++ [n], c)]) ++
      walkFiles patterns rel rest
  | (_, FsTree.dir _) :: rest => walkFiles patterns rel rest

/-- Recursive descent into the subdirectories that survived the
`dirs[:] = [...]` filter: an excluded directory contributes nothing and
is never walked. -/
def walkDirs (patterns : List String) (rel : List String) :
    List (String × FsTree) → List (List String × List Nat)
  | [] => []
  | (_, FsTree.file _) :: rest => walkDirs patterns rel rest
  | (n, FsTree.dir es) :: rest =>
    (if shouldExclude (rel ++ [n]) patterns then []
     else walkTree patterns (rel ++ [n]) (FsTree.dir es)) ++
      walkDirs patterns rel rest

end

mutual

/-- All regular files under a node, with their paths relative to that
node and their contents.  This is the specification-side description of
"every regular file under the source". -/
def filesOf : FsTree → List (List String × List Nat)
  | FsTree.file _ => []
  | FsTree.dir es => filesOfEntries es

/-- All regular files under a list of directory entries, with paths
relative to the directory holding the entries. -/
def filesOfEntries : List (String × FsTree) → List (List String × List Nat)
  | [] => []
  | (n, FsTree.file c) :: rest => ([n], c) :: filesOfEntries rest
  | (n, FsTree.dir es) :: rest =>
    (filesOfEntries es).map (fun pc => (n :: pc.1, pc.2)) ++ filesOfEntries rest

end

/-- Pairwise distinctness of a list of names, decidably. -/
def distinctNames : List String → Bool
  | [] => true
  | n :: rest => (!(decide (n ∈ rest))) && distinctNames rest

mutual

/-- Well-formedness of a filesystem tree: sibling names within each
directory are pairwise distinct, as on a real filesystem. -/
def wfTree : FsTree → Bool
  | FsTree.file _ => true
  | FsTree.dir es => distinctNames (es.map Prod.fst) && wfEntriesRec es

/-- Well-formedness of every subtree of a list of directory entries. -/
def wfEntriesRec : List (String × FsTree) → Bool
  | [] => true
  | (_, t) :: rest => wfTree t && wfEntriesRec rest

end

/-- Absolute filesystem paths are modelled as their list of components;
rendering prepends a root `/` and joins with `/`. -/
abbrev PPath := List String

/-- Last path component, `Path.name` (empty for the root). -/
def PPath.name (p : PPath) : String := p.getLastD ""

/-- Path without its last component, `Path.parent`. -/
def PPath.parent (p : PPath) : PPath := p.dropLast

/-- Replace the last component, `Path.with_name`. -/
def PPath.withName (p : PPath) (n : String) : PPath := p.dropLast ++ [n]

/-- Index of the last dot in a list of characters, if any. -/
def lastDotIdx : List Char → Option Nat
  | [] => none
  | c :: rest =>
    match lastDotIdx rest with
    | some i => some (i + 1)
    | none => if c = '.' then some 0 else none

/-- Length of the `pathlib` suffix of a file name: the part from the last
dot onwards, provided that dot is neither the first nor the last
character; otherwise the suffix is empty. -/
def pySuffixLen (l : List Char) : Nat :=
  match lastDotIdx l with
  | some i => if 0 < i ∧ i + 1 < l.length then l.length - i else 0
  | none => 0

/-- `pathlib`-style suffix replacement on a bare name: drop the current
suffix (which is empty when the name has no extension, in which case the
new suffix is appended) and append the new suffix. -/
def pyWithSuffix (name : String) (suf : String) : String :=
  let l := name.toList
  String.mk (l.take (l.length - pySuffixLen l)) ++ suf

/-- `Path.with_suffix` on component paths. -/
def PPath.withSuffix (p : PPath) (suf : String) : PPath :=
  PPath.withName p (pyWithSuffix (PPath.name p) suf)

/-- Rendering of an absolute path, `str(path)` on a POSIX system. -/
def pathStr (p : PPath) : String := "/" ++ String.intercalate "/" p

example : pyWithSuffix "dir.zip" ".resource-meta.xml" = "dir.resource-meta.xml" := by decide
example : pyWithSuffix "a" ".zip" = "a.zip" := by decide
example : pyWithSuffix "a.tar.gz" ".zip" = "a.tar.zip" := by decide
example : pyWithSuffix ".bashrc" ".zip" = ".bashrc.zip" := by decide
example : pathStr ["tmp", "a"] = "/tmp/a" := by decide

/-- Failure kinds surfaced by `_run_task`: the missing-required-option
error (the `ValueError` raised when the `path` option is absent or
empty) and the path-not-found error (the `FileNotFoundError` raised when
the resolved source path does not exist). -/
inductive ZipError where
  | missingRequiredOption
  | pathNotFound
deriving DecidableEq

/-- Durable filesystem side effects of a run, in the order they are
performed: creation of the output's parent directories
(`mkdir(parents=True, exist_ok=True)`), creation of the archive with its
member list in write order, and the overwriting write of the sidecar
file's textual content. -/
inductive FsEffect where
  | mkdirParents : PPath → FsEffect
  | createArchive : PPath → List (List String × List Nat) → FsEffect
  | writeSidecar : PPath → String → FsEffect
deriving DecidableEq

/-- Value of the `include_meta` option as delivered by the host: a
boolean or a string. -/
inductive MetaVal where
  | b : Bool → MetaVal
  | s : String → MetaVal
deriving DecidableEq

/-- Lower-casing of a string, `str.lower()`, character by character. -/
def pyLower (s : String) : String := String.mk (s.toList.map Char.toLower)

/-- Coercion of the `include_meta` option to a boolean: absent means
false, a boolean is itself, and a string counts as true exactly when its
lower-casing is `"true"`, `"1"` or `"yes"`. -/
def resolveIncludeMeta : Option MetaVal → Bool
  | none => false
  | some (MetaVal.b v) => v
  | some (MetaVal.s v) => decide (pyLower v ∈ (["true", "1", "yes"] : List String))

/-- Resolved option values reaching `_run_task`: `path` and `output` as
raw strings when supplied, `exclude` as the already-normalised pattern
list (`process_list_arg` of the host turns a delimited string into a
list; an absent or empty option yields the empty list), and
`include_meta` as delivered. -/
structure Options where
  path : Option String := none
  output : Option String := none
  exclude : List String := []
  include_meta : Option MetaVal := none

/-- Result record stored in `return_values`: the archive path under
`zip_path` always, and the sidecar path under `meta_path` only when a
sidecar was written. -/
structure Result where
  zip_path : String
  meta_path : Option String := none
deriving DecidableEq

/-- Fixed literal XML document written to the sidecar file. -/
def metaContent : String :=
  "<?xml version=\"1.0\" encoding=\"UTF-8\"?>\n<StaticResource xmlns=\"http://soap.sforce.com/2006/04/metadata\">\n    <cacheControl>Public</cacheControl>\n    <contentType>application/zip</contentType>\n</StaticResource>"

/-- Default output path when the `output` option is absent: append
`.zip` to the name of a directory source, replace the extension of a
file source. -/
def deriveOutput (source : PPath) : FsTree → PPath
  | FsTree.dir _ => PPath.withName source (PPath.name source ++ ".zip")
  | FsTree.file _ => PPath.withSuffix source ".zip"

/-- Members written into the archive: a directory source is walked with
pruning from the source root; a single-file source is stored at the
archive root under its bare name unless it is itself excluded (relative
to its parent directory, so its relative path is its bare name). -/
def archiveMembers (source : PPath) (node : FsTree) (patterns : List String) :
    List (List String × List Nat) :=
  match node with
  | FsTree.file c =>
    if shouldExclude [PPath.name source] patterns then []
    else [([PPath.name source], c)]
  | FsTree.dir es => walkTree patterns [] (FsTree.dir es)

/-- Embedding of `ZipPath._run_task`.  `resolve` abstracts
`Path(value).resolve()` and `lookup` the filesystem contents at a
resolved path (`none` when nothing exists there).  The run returns the
list of filesystem effects it performed together with either an error or
the result record; both error paths occur before any effect. -/
def run (resolve : String → PPath) (lookup : PPath → Option FsTree)
    (opts : Options) : List FsEffect × Except ZipError Result :=
  match opts.path with
  | none => ([], Except.error ZipError.missingRequiredOption)
  | some pathValue =>
    if pathValue = "" then ([], Except.error ZipError.missingRequiredOption)
    else
      let source := resolve pathValue
      match lookup source with
      | none => ([], Except.error ZipError.pathNotFound)
      | some node =>
        let output :=
          match opts.output with
          | some o => resolve o
          | none => deriveOutput source node
        let members := archiveMembers source node opts.exclude
        if resolveIncludeMeta opts.include_meta then
          let metaPath := PPath.withSuffix output ".resource-meta.xml"
          ([FsEffect.mkdirParents (PPath.parent output),
            FsEffect.createArchive output members,
            FsEffect.writeSidecar metaPath metaContent],
           Except.ok { zip_path := pathStr output, meta_path := some (pathStr metaPath) })
        else
          ([FsEffect.mkdirParents (PPath.parent output),
            FsEffect.createArchive output members],
           Except.ok { zip_path := pathStr output })

/-- Prefix relation on component paths: `isPre d p` holds when the
entry at path `p` lies at or beneath the directory at path `d`. -/
def isPre (d p : List String) : Prop := ∃ t, d ++ t = p

/-- With no exclusion patterns nothing is excluded. -/
theorem shouldExclude_nil (rel : List String) : shouldExclude rel [] = false := rfl

mutual

/-- With no exclusion patterns, the walk of a node collects exactly the
regular files under it, each at its source-relative path with its
contents, up to traversal order. -/
theorem walkTree_perm_filesOf (rel : List String) (t : FsTree) :
    List.Perm (walkTree [] rel t) ((filesOf t).map fun pc => (rel ++ pc.1, pc.2)) :=
  match t with
  | FsTree.file _ => by simp [walkTree, filesOf]
  | FsTree.dir es => by
    simpa [walkTree, filesOf] using walkEntries_perm_filesOf rel es

/-- Entry-list form of `walkTree_perm_filesOf`. -/
theorem walkEntries_perm_filesOf (rel : List String) (es : List (String × FsTree)) :
    List.Perm (walkFiles [] rel es ++ walkDirs [] rel es)
      ((filesOfEntries es).map fun pc => (rel ++ pc.1, pc.2)) :=
  match es with
  | [] => by simp [walkFiles, walkDirs, filesOfEntries]
  | (n, FsTree.file c) :: rest => by
    have ih := walkEntries_perm_filesOf rel rest
    simp only [walkFiles, walkDirs, filesOfEntries, shouldExclude_nil, if_false,
      Bool.false_eq_true, List.map_cons, List.cons_append, List.singleton_append,
      List.append_assoc]
    exact ih.cons _
  | (n, FsTree.dir ss) :: rest => by
    have ih := walkEntries_perm_filesOf rel rest
    have ihs : List.Perm (walkTree [] (rel ++ [n]) (FsTree.dir ss))
        ((filesOfEntries ss).map fun pc => (rel ++ n :: pc.1, pc.2)) := by
      simpa [filesOf, List.append_assoc] using
        walkTree_perm_filesOf (rel ++ [n]) (FsTree.dir ss)
    simp only [walkFiles, walkDirs, filesOfEntries, shouldExclude_nil, if_false,
      Bool.false_eq_true, List.map_append, List.map_map]
    rw [← List.append_assoc]
    refine List.Perm.trans (List.perm_append_comm.append_right _) ?_
    rw [List.append_assoc]
    refine List.Perm.append (List.Perm.trans ihs ?_) ih
    exact List.Perm.refl _

end

/-- Every relative path collected under a list of entries starts with
the name of one of the entries. -/
theorem filesOfEntries_head (es : List (String × FsTree)) :
    ∀ pc ∈ filesOfEntries es, ∃ m q, pc.1 = m :: q ∧ m ∈ es.map Prod.fst := by
  induction es with
  | nil => simp [filesOfEntries]
  | cons e rest ih =>
    obtain ⟨n, t⟩ := e
    cases t with
    | file c =>
      intro pc h
      simp only [filesOfEntries, List.mem_cons] at h
      rcases h with h | h
      · exact ⟨n, [], by simp [h]⟩
      · obtain ⟨m, q, hq, hm⟩ := ih pc h
        exact ⟨m, q, hq, by simp [hm]⟩
    | dir ss =>
      intro pc h
      simp only [filesOfEntries, List.mem_append, List.mem_map] at h
      rcases h with ⟨pc₀, _, h⟩ | h
      · exact ⟨n, pc₀.1, by simp [← h]⟩
      · obtain ⟨m, q, hq, hm⟩ := ih pc h
        exact ⟨m, q, hq, by simp [hm]⟩

mutual

/-- For a well-formed tree the collected relative paths are pairwise
distinct: every file under the source occurs at exactly one relative
path. -/
theorem filesOf_fst_nodup (t : FsTree) (hwf : wfTree t = true) :
    ((filesOf t).map Prod.fst).Nodup :=
  match t with
  | FsTree.file _ => by simp [filesOf]
  | FsTree.dir es => by
    simp only [wfTree, Bool.and_eq_true] at hwf
    simpa [filesOf] using filesOfEntries_fst_nodup es hwf.1 hwf.2

/-- Entry-list form of `filesOf_fst_nodup`. -/
theorem filesOfEntries_fst_nodup (es : List (String × FsTree))
    (hd : distinctNames (es.map Prod.fst) = true) (hw : wfEntriesRec es = true) :
    ((filesOfEntries es).map Prod.fst).Nodup :=
  match es with
  | [] => by simp [filesOfEntries]
  | (n, FsTree.file c) :: rest => by
    simp only [List.map_cons, distinctNames, Bool.and_eq_true, Bool.not_eq_eq_eq_not,
      Bool.not_true, decide_eq_false_iff_not] at hd
    simp only [wfEntriesRec, Bool.and_eq_true] at hw
    have ih := filesOfEntries_fst_nodup rest hd.2 hw.2
    simp only [filesOfEntries, List.map_cons, List.nodup_cons]
    refine ⟨?_, ih⟩
    intro hmem
    obtain ⟨pc, hpc, hfst⟩ := List.mem_map.mp hmem
    obtain ⟨m, q, hq, hm⟩ := filesOfEntries_head rest pc hpc
    rw [hq] at hfst
    cases hfst
    exact hd.1 hm
  | (n, FsTree.dir ss) :: rest => by
    simp only [List.map_cons, distinctNames, Bool.and_eq_true, Bool.not_eq_eq_eq_not,
      Bool.not_true, decide_eq_false_iff_not] at hd
    simp only [wfEntriesRec, Bool.and_eq_true] at hw
    have ih := filesOfEntries_fst_nodup rest hd.2 hw.2
    have ihs : ((filesOfEntries ss).map Prod.fst).Nodup := by
      have h := filesOf_fst_nodup (FsTree.dir ss) hw.1
      simpa [filesOf] using h
    simp only [filesOfEntries, List.map_append, List.map_map, List.nodup_append]
    refine ⟨?_, ih, ?_⟩
    · have hinj : Function.Injective (fun q : List String => n :: q) := by
        intro a b h
        simpa using h
      simpa [Function.comp, List.map_map] using List.Nodup.map hinj ihs
    · intro a ha hb
      simp only [List.mem_map, Function.comp] at ha
      obtain ⟨pc, _, hfst⟩ := ha
      obtain ⟨pc₂, hpc₂, hfst₂⟩ := List.mem_map.mp hb
      obtain ⟨m, q, hq, hm⟩ := filesOfEntries_head rest pc₂ hpc₂
      rw [hq] at hfst₂
      rw [← hfst] at hfst₂
      cases hfst₂
      exact hd.1 hm

end

mutual

/-- Every archive member produced by the walk lies strictly below the
walk root, and every directory on the path from the walk root down to
the member (the member itself included) passed the exclusion filter:
excluded subtrees are pruned before descent, so nothing below them is
ever collected. -/
theorem walkTree_mem_inv (patterns rel : List String) (t : FsTree) :
    ∀ p c, (p, c) ∈ walkTree patterns rel t →
      ∃ q, p = rel ++ q ∧ q ≠ [] ∧
        ∀ q₁, q₁ ≠ [] → isPre q₁ q → shouldExclude (rel ++ q₁) patterns = false :=
  match t with
  | FsTree.file _ => by simp [walkTree]
  | FsTree.dir es => by
    intro p c h
    simp only [walkTree, List.mem_append] at h
    rcases h with h | h
    · exact walkFiles_mem_inv patterns rel es p c h
    · exact walkDirs_mem_inv patterns rel es p c h

/-- File part of `walkTree_mem_inv`. -/
theorem walkFiles_mem_inv (patterns rel : List String) (es : List (String × FsTree)) :
    ∀ p c, (p, c) ∈ walkFiles patterns rel es →
      ∃ q, p = rel ++ q ∧ q ≠ [] ∧
        ∀ q₁, q₁ ≠ [] → isPre q₁ q → shouldExclude (rel ++ q₁) patterns = false :=
  match es with
  | [] => by simp [walkFiles]
  | (n, FsTree.file c₀) :: rest => by
    intro p c h
    simp only [walkFiles, List.mem_append] at h
    rcases h with h | h
    · by_cases hex : shouldExclude (rel ++ [n]) patterns
      · simp [hex] at h
      · simp only [hex, if_false, Bool.false_eq_true, List.mem_singleton,
          Prod.mk.injEq] at h
        refine ⟨[n], h.1, by simp, ?_⟩
        intro q₁ hne hpre
        obtain ⟨t, ht⟩ := hpre
        match q₁, ht with
        | [], _ => exact absurd rfl hne
        | [m], ht =>
          simp only [List.cons_append, List.nil_append, List.cons.injEq] at ht
          rw [ht.1]
          simpa using hex
        | m :: m₂ :: q₂, ht => simp at ht
    · exact walkFiles_mem_inv patterns rel rest p c h
  | (_, FsTree.dir _) :: rest => by
    intro p c h
    simp only [walkFiles] at h
    exact walkFiles_mem_inv patterns rel rest p c h

/-- Directory part of `walkTree_mem_inv`. -/
theorem walkDirs_mem_inv (patterns rel : List String) (es : List (String × FsTree)) :
    ∀ p c, (p, c) ∈ walkDirs patterns rel es →
      ∃ q, p = rel ++ q ∧ q ≠ [] ∧
        ∀ q₁, q₁ ≠ [] → isPre q₁ q → shouldExclude (rel ++ q₁) patterns = false :=
  match es with
  | [] => by simp [walkDirs]
  | (_, FsTree.file _) :: rest => by
    intro p c h
    simp only [walkDirs] at h
    exact walkDirs_mem_inv patterns rel rest p c h
  | (n, FsTree.dir ss) :: rest => by
    intro p c h
    simp only [walkDirs, List.mem_append] at h
    rcases h with h | h
    · by_cases hex : shouldExclude (rel ++ [n]) patterns
      · simp [hex] at h
      · simp only [hex, if_false, Bool.false_eq_true] at h
        obtain ⟨q₀, hp, _, hsub⟩ :=
          walkTree_mem_inv patterns (rel ++ [n]) (FsTree.dir ss) p c h
        refine ⟨n :: q₀, by simpa [List.append_assoc] using hp, by simp, ?_⟩
        intro q₁ hne hpre
        obtain ⟨t, ht⟩ := hpre
        match q₁, ht with
        | [], _ => exact absurd rfl hne
        | m :: q₂, ht =>
          simp only [List.cons_append, List.cons.injEq] at ht
          obtain ⟨hm, ht₂⟩ := ht
          rw [hm]
          by_cases hq₂ : q₂ = []
          · subst hq₂
            simpa using hex
          · have hs : shouldExclude ((rel ++ [n]) ++ q₂) patterns = false :=
              hsub q₂ hq₂ ⟨t, ht₂⟩
            simpa [List.append_assoc] using hs
    · exact walkDirs_mem_inv patterns rel rest p c h

end

/-- Output archive path chosen by a run whose source exists. -/
def outputOf (resolve : String → PPath) (opts : Options) (pathValue : String)
    (node : FsTree) : PPath :=
  match opts.output with
  | some o => resolve o
  | none => deriveOutput (resolve pathValue) node

/-- Normal form of a run whose `path` option is a non-empty string
resolving to an existing node: the parent directories of the output are
created, the archive is written with the filtered members, and the
sidecar is written exactly when `include_meta` resolves to true, in
which case the result record additionally carries the sidecar path. -/
theorem run_found (resolve : String → PPath) (lookup : PPath → Option FsTree)
    (opts : Options) (pathValue : String) (node : FsTree)
    (h0 : opts.path = some pathValue) (h1 : pathValue ≠ "")
    (h2 : lookup (resolve pathValue) = some node) :
    run resolve lookup opts =
      (if resolveIncludeMeta opts.include_meta then
        ([FsEffect.mkdirParents (PPath.parent (outputOf resolve opts pathValue node)),
          FsEffect.createArchive (outputOf resolve opts pathValue node)
            (archiveMembers (resolve pathValue) node opts.exclude),
          FsEffect.writeSidecar
            (PPath.withSuffix (outputOf resolve opts pathValue node) ".resource-meta.xml")
            metaContent],
         Except.ok
           { zip_path := pathStr (outputOf resolve opts pathValue node),
             meta_path := some (pathStr
               (PPath.withSuffix (outputOf resolve opts pathValue node) ".resource-meta.xml")) })
      else
        ([FsEffect.mkdirParents (PPath.parent (outputOf resolve opts pathValue node)),
          FsEffect.createArchive (outputOf resolve opts pathValue node)
            (archiveMembers (resolve pathValue) node opts.exclude)],
         Except.ok { zip_path := pathStr (outputOf resolve opts pathValue node),
                     meta_path := none })) := by
  obtain ⟨popt, oopt, ex, im⟩ := opts
  simp only [Options.path] at h0
  subst h0
  simp only [run, outputOf, Options.output, Options.exclude, Options.include_meta,
    h1, if_neg, h2]
  simp

/-- Claim C3: an entry is excluded exactly when some pattern matches its
source-relative path (rendered with `/` separators) or its bare name — a
logical OR across all patterns and both match modes — and with an empty
pattern list nothing is excluded. -/
theorem C3_exclusion_or_semantics :
    (∀ rel patterns, shouldExclude rel patterns = true ↔
      ∃ pat ∈ patterns,
        fnmatch (normSlash (String.intercalate "/" rel)) (normSlash pat) = true ∨
        fnmatch (rel.getLastD "") (normSlash pat) = true) ∧
    (∀ rel, shouldExclude rel ([] : List String) = false) := by
  refine ⟨fun rel patterns => ?_, fun rel => rfl⟩
  cases patterns with
  | nil => simp [shouldExclude]
  | cons p ps => simp [shouldExclude, List.any_eq_true, Bool.or_eq_true]

/-- Claim C4: when the resolved source path does not exist the run fails
with the path-not-found error and performs no filesystem effect at all:
no archive, no parent directory, no sidecar. -/
theorem C4_nonexistent_path_error (resolve : String → PPath)
    (lookup : PPath → Option FsTree) (opts : Options) (pathValue : String)
    (h0 : opts.path = some pathValue) (h1 : pathValue ≠ "")
    (h2 : lookup (resolve pathValue) = none) :
    run resolve lookup opts = ([], Except.error ZipError.pathNotFound) := by
  obtain ⟨popt, oopt, ex, im⟩ := opts
  simp only [Options.path] at h0
  subst h0
  simp [run, h1, h2]

/-- Witness for claim C4 at a concrete missing path. -/
theorem C4_nonexistent_path_error_witness :
    run (fun s => [s]) (fun _ => none)
      { path := some "missing" } = ([], Except.error ZipError.pathNotFound) :=
  C4_nonexistent_path_error (fun s => [s]) (fun _ => none)
    { path := some "missing" } "missing" rfl (by decide) rfl

/-- Claim C5: when the required `path` option is absent or empty the run
fails with the missing-required-option error and performs no filesystem
effect. -/
theorem C5_missing_path_error (resolve : String → PPath)
    (lookup : PPath → Option FsTree) (opts : Options)
    (h : opts.path = none ∨ opts.path = some "") :
    run resolve lookup opts = ([], Except.error ZipError.missingRequiredOption) := by
  obtain ⟨popt, oopt, ex, im⟩ := opts
  rcases h with h | h <;>
    (simp only [Options.path] at h; subst h; simp [run])

/-- Witness for claim C5 with the option absent. -/
theorem C5_missing_path_error_witness :
    run (fun s => [s]) (fun _ => some (FsTree.dir [])) ({} : Options) =
      ([], Except.error ZipError.missingRequiredOption) :=
  C5_missing_path_error (fun s => [s]) (fun _ => some (FsTree.dir []))
    ({} : Options) (Or.inl rfl)

/-- Claim C8: a string value of `include_meta` counts as true exactly
when it lower-cases to `"true"`, `"1"` or `"yes"` (so equals one of them
case-insensitively), anything else is false, and an absent option
defaults to false; in particular `"True"`, `"YES"` and `"1"` are true
while `"no"`, `"0"` and `""` are false. -/
theorem C8_include_meta_string_parse :
    (∀ v : String, resolveIncludeMeta (some (MetaVal.s v)) = true ↔
      (pyLower v = "true" ∨ pyLower v = "1" ∨ pyLower v = "yes")) ∧
    resolveIncludeMeta none = false ∧
    resolveIncludeMeta (some (MetaVal.s "True")) = true ∧
    resolveIncludeMeta (some (MetaVal.s "YES")) = true ∧
    resolveIncludeMeta (some (MetaVal.s "1")) = true ∧
    resolveIncludeMeta (some (MetaVal.s "no")) = false ∧
    resolveIncludeMeta (some (MetaVal.s "0")) = false ∧
    resolveIncludeMeta (some (MetaVal.s "")) = false := by
  refine ⟨fun v => ?_, rfl, by decide, by decide, by decide, by decide, by decide, by decide⟩
  simp [resolveIncludeMeta]

/-- Claim C1: for a directory source and no exclusion patterns, the
member list written into the archive is a permutation of the list of all
regular files under the source, each paired with its source-relative
path and its contents; for a well-formed source tree (distinct sibling
names) those relative paths are pairwise distinct, so every regular file
under the source appears in the archive exactly once, at its relative
path, with its contents. -/
theorem C1_directory_archive_exact (resolve : String → PPath)
    (lookup : PPath → Option FsTree) (opts : Options) (pathValue : String)
    (es : List (String × FsTree))
    (h0 : opts.path = some pathValue) (h1 : pathValue ≠ "")
    (h2 : lookup (resolve pathValue) = some (FsTree.dir es))
    (hex : opts.exclude = []) (hwf : wfTree (FsTree.dir es) = true) :
    ∃ out,
      FsEffect.createArchive out (walkTree [] [] (FsTree.dir es)) ∈
        (run resolve lookup opts).1 ∧
      List.Perm (walkTree [] [] (FsTree.dir es)) (filesOfEntries es) ∧
      ((filesOfEntries es).map Prod.fst).Nodup := by
  rw [run_found resolve lookup opts pathValue (FsTree.dir es) h0 h1 h2]
  refine ⟨outputOf resolve opts pathValue (FsTree.dir es), ?_, ?_, ?_⟩
  · by_cases him : resolveIncludeMeta opts.include_meta
    · simp [him, archiveMembers, hex]
    · simp [him, archiveMembers, hex]
  · simpa [filesOf] using walkTree_perm_filesOf [] (FsTree.dir es)
  · simpa [filesOf] using filesOf_fst_nodup (FsTree.dir es) hwf

/-- Concrete directory entries used by the witnesses: a file and a
subdirectory holding another file. -/
def wEntries : List (String × FsTree) :=
  [("a.txt", FsTree.file [1]),
   ("sub", FsTree.dir [("b.txt", FsTree.file [2])])]

/-- Witness for claim C1 on a concrete two-level directory source. -/
theorem C1_directory_archive_exact_witness :
    ∃ out,
      FsEffect.createArchive out (walkTree [] [] (FsTree.dir wEntries)) ∈
        (run (fun s => [s]) (fun _ => some (FsTree.dir wEntries))
          { path := some "src" }).1 ∧
      List.Perm (walkTree [] [] (FsTree.dir wEntries)) (filesOfEntries wEntries) ∧
      ((filesOfEntries wEntries).map Prod.fst).Nodup :=
  C1_directory_archive_exact (fun s => [s]) (fun _ => some (FsTree.dir wEntries))
    { path := some "src" } "src" wEntries rfl (by decide) rfl rfl (by decide)

/-- Claim C2: when some pattern matches a subdirectory path `d` of the
source (by relative path or bare name, which is what `shouldExclude d`
states), no member of the produced archive lies at or beneath `d`; the
walk filters subdirectories before descending, so the subtree is pruned
wholesale. -/
theorem C2_excluded_dir_pruned (resolve : String → PPath)
    (lookup : PPath → Option FsTree) (opts : Options) (pathValue : String)
    (es : List (String × FsTree)) (d : List String)
    (h0 : opts.path = some pathValue) (h1 : pathValue ≠ "")
    (h2 : lookup (resolve pathValue) = some (FsTree.dir es))
    (hd : d ≠ []) (hmatch : shouldExclude d opts.exclude = true) :
    ∃ out,
      FsEffect.createArchive out (walkTree opts.exclude [] (FsTree.dir es)) ∈
        (run resolve lookup opts).1 ∧
      ∀ p c, (p, c) ∈ walkTree opts.exclude [] (FsTree.dir es) → ¬ isPre d p := by
  rw [run_found resolve lookup opts pathValue (FsTree.dir es) h0 h1 h2]
  refine ⟨outputOf resolve opts pathValue (FsTree.dir es), ?_, ?_⟩
  · by_cases him : resolveIncludeMeta opts.include_meta
    · simp [him, archiveMembers]
    · simp [him, archiveMembers]
  · intro p c hmem hpre
    obtain ⟨q, hpq, _, hall⟩ :=
      walkTree_mem_inv opts.exclude [] (FsTree.dir es) p c hmem
    simp only [List.nil_append] at hpq
    subst hpq
    have hfalse : shouldExclude ([] ++ d) opts.exclude = false := hall d hd hpre
    simp only [List.nil_append] at hfalse
    rw [hmatch] at hfalse
    simp at hfalse

/-- Witness for claim C2: the pattern `sub` excludes the subdirectory
`sub` of the concrete source. -/
theorem C2_excluded_dir_pruned_witness :
    ∃ out,
      FsEffect.createArchive out (walkTree ["sub"] [] (FsTree.dir wEntries)) ∈
        (run (fun s => [s]) (fun _ => some (FsTree.dir wEntries))
          { path := some "src", exclude := ["sub"] }).1 ∧
      ∀ p c, (p, c) ∈ walkTree ["sub"] [] (FsTree.dir wEntries) → ¬ isPre ["sub"] p :=
  C2_excluded_dir_pruned (fun s => [s]) (fun _ => some (FsTree.dir wEntries))
    { path := some "src", exclude := ["sub"] } "src" wEntries ["sub"]
    rfl (by decide) rfl (by decide) (by decide)

/-- Claim C6: without an `output` option the archive path is derived from
the resolved source: a file source has its extension replaced by `.zip`,
a directory source has `.zip` appended to its name; in particular a file
`/tmp/a` yields `/tmp/a.zip`, a file `/tmp/a.txt` yields `/tmp/a.zip`,
and a directory `/tmp/dir` yields `/tmp/dir.zip`. -/
theorem C6_default_output (resolve : String → PPath)
    (lookup : PPath → Option FsTree) (opts : Options) (pathValue : String)
    (node : FsTree)
    (h0 : opts.path = some pathValue) (h1 : pathValue ≠ "")
    (h2 : lookup (resolve pathValue) = some node) (hout : opts.output = none) :
    (∃ effs r, run resolve lookup opts = (effs, Except.ok r) ∧
       r.zip_path = pathStr (deriveOutput (resolve pathValue) node)) ∧
    (∀ c, deriveOutput (resolve pathValue) (FsTree.file c) =
       PPath.withSuffix (resolve pathValue) ".zip") ∧
    (∀ es, deriveOutput (resolve pathValue) (FsTree.dir es) =
       PPath.withName (resolve pathValue) (PPath.name (resolve pathValue) ++ ".zip")) ∧
    pathStr (deriveOutput ["tmp", "a"] (FsTree.file [])) = "/tmp/a.zip" ∧
    pathStr (deriveOutput ["tmp", "a.txt"] (FsTree.file [])) = "/tmp/a.zip" ∧
    pathStr (deriveOutput ["tmp", "dir"] (FsTree.dir [])) = "/tmp/dir.zip" := by
  refine ⟨?_, fun c => rfl, fun es => rfl, by decide, by decide, by decide⟩
  rw [run_found resolve lookup opts pathValue node h0 h1 h2]
  by_cases him : resolveIncludeMeta opts.include_meta
  · rw [if_pos him]
    refine ⟨_, _, rfl, ?_⟩
    simp [outputOf, hout]
  · rw [if_neg him]
    refine ⟨_, _, rfl, ?_⟩
    simp [outputOf, hout]

/-- Witness for claim C6 on a concrete file source with no `output`
option. -/
theorem C6_default_output_witness :
    (∃ effs r,
       run (fun s => [s]) (fun _ => some (FsTree.file [7])) { path := some "n.txt" } =
         (effs, Except.ok r) ∧
       r.zip_path = pathStr (deriveOutput ["n.txt"] (FsTree.file [7]))) ∧
    (∀ c, deriveOutput ["n.txt"] (FsTree.file c) = PPath.withSuffix ["n.txt"] ".zip") ∧
    (∀ es, deriveOutput ["n.txt"] (FsTree.dir es) =
       PPath.withName ["n.txt"] (PPath.name ["n.txt"] ++ ".zip")) ∧
    pathStr (deriveOutput ["tmp", "a"] (FsTree.file [])) = "/tmp/a.zip" ∧
    pathStr (deriveOutput ["tmp", "a.txt"] (FsTree.file [])) = "/tmp/a.zip" ∧
    pathStr (deriveOutput ["tmp", "dir"] (FsTree.dir [])) = "/tmp/dir.zip" :=
  C6_default_output (fun s => [s]) (fun _ => some (FsTree.file [7]))
    { path := some "n.txt" } "n.txt" (FsTree.file [7]) rfl (by decide) rfl rfl

/-- Claim C7: when `include_meta` resolves to true the run writes, after
creating the archive, a sidecar at the archive path with its extension
replaced by `.resource-meta.xml`, whose content is exactly the fixed
literal StaticResource XML document, independent of the source node, the
patterns and the archive's members, and the sidecar path is reported in
the result record. -/
theorem C7_sidecar_fixed_content (resolve : String → PPath)
    (lookup : PPath → Option FsTree) (opts : Options) (pathValue : String)
    (node : FsTree)
    (h0 : opts.path = some pathValue) (h1 : pathValue ≠ "")
    (h2 : lookup (resolve pathValue) = some node)
    (him : resolveIncludeMeta opts.include_meta = true) :
    ∃ out members r,
      run resolve lookup opts =
        ([FsEffect.mkdirParents (PPath.parent out),
          FsEffect.createArchive out members,
          FsEffect.writeSidecar (PPath.withSuffix out ".resource-meta.xml") metaContent],
         Except.ok r) ∧
      r.meta_path = some (pathStr (PPath.withSuffix out ".resource-meta.xml")) ∧
      metaContent =
        "<?xml version=\"1.0\" encoding=\"UTF-8\"?>\n<StaticResource xmlns=\"http://soap.sforce.com/2006/04/metadata\">\n    <cacheControl>Public</cacheControl>\n    <contentType>application/zip</contentType>\n</StaticResource>" := by
  rw [run_found resolve lookup opts pathValue node h0 h1 h2]
  rw [if_pos him]
  exact ⟨outputOf resolve opts pathValue node,
    archiveMembers (resolve pathValue) node opts.exclude, _, rfl, rfl, rfl⟩

/-- Witness for claim C7 with `include_meta` given as the string
`"True"`. -/
theorem C7_sidecar_fixed_content_witness :
    ∃ out members r,
      run (fun s => [s]) (fun _ => some (FsTree.file [7]))
        { path := some "n.txt", include_meta := some (MetaVal.s "True") } =
        ([FsEffect.mkdirParents (PPath.parent out),
          FsEffect.createArchive out members,
          FsEffect.writeSidecar (PPath.withSuffix out ".resource-meta.xml") metaContent],
         Except.ok r) ∧
      r.meta_path = some (pathStr (PPath.withSuffix out ".resource-meta.xml")) ∧
      metaContent =
        "<?xml version=\"1.0\" encoding=\"UTF-8\"?>\n<StaticResource xmlns=\"http://soap.sforce.com/2006/04/metadata\">\n    <cacheControl>Public</cacheControl>\n    <contentType>application/zip</contentType>\n</StaticResource>" :=
  C7_sidecar_fixed_content (fun s => [s]) (fun _ => some (FsTree.file [7]))
    { path := some "n.txt", include_meta := some (MetaVal.s "True") }
    "n.txt" (FsTree.file [7]) rfl (by decide) rfl (by decide)

/-- Claim C9: every successful run reports under `zip_path` the path of
the archive it created, and its result record carries a `meta_path`
entry exactly when a sidecar write was among the run's effects. -/
theorem C9_result_record (resolve : String → PPath)
    (lookup : PPath → Option FsTree) (opts : Options)
    (effs : List FsEffect) (r : Result)
    (h : run resolve lookup opts = (effs, Except.ok r)) :
    (∃ out members, FsEffect.createArchive out members ∈ effs ∧
       r.zip_path = pathStr out) ∧
    (r.meta_path ≠ none ↔ ∃ sp s, FsEffect.writeSidecar sp s ∈ effs) := by
  obtain ⟨popt, oopt, ex, im⟩ := opts
  cases popt with
  | none => simp [run] at h
  | some pv =>
    by_cases h1 : pv = ""
    · subst h1
      simp [run] at h
    · cases hl : lookup (resolve pv) with
      | none =>
        rw [show (⟨some pv, oopt, ex, im⟩ : Options) = { path := some pv, output := oopt, exclude := ex, include_meta := im } from rfl] at h
        simp [run, h1, hl] at h
      | some node =>
        rw [run_found resolve lookup ⟨some pv, oopt, ex, im⟩ pv node rfl h1 hl] at h
        by_cases him : resolveIncludeMeta im
        · rw [if_pos him] at h
          simp only [Prod.mk.injEq, Except.ok.injEq] at h
          obtain ⟨heffs, hr⟩ := h
          subst heffs
          subst hr
          constructor
          · exact ⟨outputOf resolve ⟨some pv, oopt, ex, im⟩ pv node,
              archiveMembers (resolve pv) node ex, by simp, rfl⟩
          · simp
        · rw [if_neg him] at h
          simp only [Prod.mk.injEq, Except.ok.injEq] at h
          obtain ⟨heffs, hr⟩ := h
          subst heffs
          subst hr
          constructor
          · exact ⟨outputOf resolve ⟨some pv, oopt, ex, im⟩ pv node,
              archiveMembers (resolve pv) node ex, by simp, rfl⟩
          · simp

/-- Witness for claim C9 on a concrete successful run without sidecar. -/
theorem C9_result_record_witness :
    (∃ out members,
       FsEffect.createArchive out members ∈
         [FsEffect.mkdirParents (PPath.parent (deriveOutput ["n.txt"] (FsTree.file [7]))),
          FsEffect.createArchive (deriveOutput ["n.txt"] (FsTree.file [7]))
            [(["n.txt"], [7])]] ∧
       ({ zip_path := pathStr (deriveOutput ["n.txt"] (FsTree.file [7])) } : Result).zip_path =
         pathStr out) ∧
    (({ zip_path := pathStr (deriveOutput ["n.txt"] (FsTree.file [7])) } : Result).meta_path ≠ none ↔
      ∃ sp s, FsEffect.writeSidecar sp s ∈
        [FsEffect.mkdirParents (PPath.parent (deriveOutput ["n.txt"] (FsTree.file [7]))),
         FsEffect.createArchive (deriveOutput ["n.txt"] (FsTree.file [7]))
           [(["n.txt"], [7])]]) :=
  C9_result_record (fun s => [s]) (fun _ => some (FsTree.file [7]))
    { path := some "n.txt" }
    [FsEffect.mkdirParents (PPath.parent (deriveOutput ["n.txt"] (FsTree.file [7]))),
     FsEffect.createArchive (deriveOutput ["n.txt"] (FsTree.file [7])) [(["n.txt"], [7])]]
    { zip_path := pathStr (deriveOutput ["n.txt"] (FsTree.file [7])) } rfl

/-- Claim C10: a single-file source that matches an exclusion pattern
still succeeds: the archive is created with zero members and the result
record still reports the archive path. -/
theorem C10_excluded_single_file_empty_archive (resolve : String → PPath)
    (lookup : PPath → Option FsTree) (opts : Options) (pathValue : String)
    (c : List Nat)
    (h0 : opts.path = some pathValue) (h1 : pathValue ≠ "")
    (h2 : lookup (resolve pathValue) = some (FsTree.file c))
    (hex : shouldExclude [PPath.name (resolve pathValue)] opts.exclude = true) :
    ∃ out r,
      (run resolve lookup opts).2 = Except.ok r ∧
      FsEffect.createArchive out [] ∈ (run resolve lookup opts).1 ∧
      r.zip_path = pathStr out := by
  rw [run_found resolve lookup opts pathValue (FsTree.file c) h0 h1 h2]
  by_cases him : resolveIncludeMeta opts.include_meta
  · rw [if_pos him]
    refine ⟨outputOf resolve opts pathValue (FsTree.file c), _, rfl, ?_, rfl⟩
    simp [archiveMembers, hex]
  · rw [if_neg him]
    refine ⟨outputOf resolve opts pathValue (FsTree.file c), _, rfl, ?_, rfl⟩
    simp [archiveMembers, hex]

/-- Witness for claim C10 on a concrete excluded single-file source. -/
theorem C10_excluded_single_file_empty_archive_witness :
    ∃ out r,
      (run (fun s => [s]) (fun _ => some (FsTree.file [7]))
        { path := some "a.log", exclude := ["*.log"] }).2 = Except.ok r ∧
      FsEffect.createArchive out [] ∈
        (run (fun s => [s]) (fun _ => some (FsTree.file [7]))
          { path := some "a.log", exclude := ["*.log"] }).1 ∧
      r.zip_path = pathStr out :=
  C10_excluded_single_file_empty_archive (fun s => [s])
    (fun _ => some (FsTree.file [7])) { path := some "a.log", exclude := ["*.log"] }
    "a.log" [7] rfl (by decide) rfl (by decide)

end ZipPath
